import Mathlib

/-!
Verification development for a WebAssembly binding layer over an ASN.1/DER
encoding library.  The sources consist of `src/wrapper.c`, three exported
functions that forward to the native routines `asn1_length_der`,
`asn1_octet_der` and `asn1_bit_der` of the wrapped library.  The wrapper is
embedded with the native routines as abstract parameters; the DER encoders
themselves, whose implementation is not part of the sources, are modelled
from the specification.
-/

namespace DerWrapper

/-- Observable effect of one call to a wrapped native encoding routine: the
bytes it writes into the destination buffer `der`, and the value it writes
through the `int *der_len` output pointer (`none` when it leaves the pointee
untouched). -/
structure LibOut where
  der : List Nat
  derLen : Option Int
deriving DecidableEq

/-- Embedding of `node_asn1_length_der` from `src/wrapper.c`: it declares a
local `int der_len = 0`, calls `asn1_length_der(len, der, &der_len)` and
returns `der_len`.  The native routine is the parameter `asn1_length_der`,
mapping the length argument to its observable effect; after the call the
local holds the written value, or still `0` when nothing was written. -/
def node_asn1_length_der (asn1_length_der : Nat → LibOut) (len : Nat) : Int :=
  let der_len : Int := 0
  match (asn1_length_der len).derLen with
  | some v => v
  | none => der_len

/-- Embedding of `node_asn1_octet_der` from `src/wrapper.c`: local
`int der_len = 0`, call `asn1_octet_der(str, str_len, der, &der_len)`,
return `der_len`. -/
def node_asn1_octet_der (asn1_octet_der : List Nat → Int → LibOut)
    (str : List Nat) (str_len : Int) : Int :=
  let der_len : Int := 0
  match (asn1_octet_der str str_len).derLen with
  | some v => v
  | none => der_len

/-- Embedding of `node_asn1_bit_der` from `src/wrapper.c`: local
`int der_len = 0`, call `asn1_bit_der(str, bit_len, der, &der_len)`,
return `der_len`. -/
def node_asn1_bit_der (asn1_bit_der : List Nat → Int → LibOut)
    (str : List Nat) (bit_len : Int) : Int :=
  let der_len : Int := 0
  match (asn1_bit_der str bit_len).derLen with
  | some v => v
  | none => der_len

/-- The length value a native call produced through its output pointer, the
wrapper-local initial value `0` when it produced none. -/
def LibOut.producedLength (o : LibOut) : Int :=
  o.derLen.getD 0

/-- Spec-side description of the first wrapper, following the words of the
spec: the function forwards its arguments directly to the pre-existing
native library call and returns the length that call produced. -/
def specForwardLength (asn1_length_der : Nat → LibOut) (len : Nat) : Int :=
  (asn1_length_der len).producedLength

/-- Spec-side description of the second wrapper: direct forwarding of the
unchanged arguments, result is the produced length. -/
def specForwardOctet (asn1_octet_der : List Nat → Int → LibOut)
    (str : List Nat) (str_len : Int) : Int :=
  (asn1_octet_der str str_len).producedLength

/-- Spec-side description of the third wrapper: direct forwarding of the
unchanged arguments, result is the produced length. -/
def specForwardBit (asn1_bit_der : List Nat → Int → LibOut)
    (str : List Nat) (bit_len : Int) : Int :=
  (asn1_bit_der str bit_len).producedLength

/-- C conversion of a caller-supplied integer value to the parameter type
`unsigned long int` of width `w` bits: reduction modulo `2 ^ w`. -/
def toUnsignedLong (w : Nat) (v : Int) : Nat :=
  (v % (2 ^ w : Int)).toNat

/-- `node_asn1_length_der` as seen from the call boundary: the caller value
is converted to the `unsigned long int` parameter of width `w` before the
wrapper body runs. -/
def node_asn1_length_der_boundary (w : Nat) (asn1_length_der : Nat → LibOut)
    (v : Int) : Int :=
  node_asn1_length_der asn1_length_der (toUnsignedLong w v)

/-- A native routine that reports back, through the output pointer, the
length argument it received: used to observe what value reaches the
library. -/
def reportLen : Nat → LibOut :=
  fun n => ⟨[], some (n : Int)⟩

/-- Reporting native routine for the octet-string wrapper: reports the
`int str_len` argument it received. -/
def reportOctet : List Nat → Int → LibOut :=
  fun _ n => ⟨[], some n⟩

/-- Reporting native routine for the bit-string wrapper: reports the
`int bit_len` argument it received. -/
def reportBit : List Nat → Int → LibOut :=
  fun _ n => ⟨[], some n⟩

/-- Modelled from the spec: the DER length encoder `asn1_length_der` of the
wrapped library is absent from the sources, only its caller is present.
`toBytesBE n` is the minimal big-endian byte string of `n`: empty for `0`,
otherwise the high-order bytes first with no leading zero byte. -/
def toBytesBE (n : Nat) : List Nat :=
  if h : n = 0 then []
  else toBytesBE (n / 256) ++ [n % 256]
termination_by n
decreasing_by exact Nat.div_lt_self (Nat.pos_of_ne_zero h) (by decide)

/-- Big-endian value of a byte string, most significant byte first. -/
def fromBytesBE (l : List Nat) : Nat :=
  l.foldl (fun acc b => acc * 256 + b) 0

/-- Modelled from the spec: `encode_length`, the DER length-prefix encoding
implemented by the absent `asn1_length_der`.  Short form, a single byte
equal to `n`, when `n ≤ 127`; otherwise one leading byte `0x80 ||| k`
followed by the `k` minimal big-endian bytes of `n`. -/
def encode_length (n : Nat) : List Nat :=
  if n ≤ 127 then [n]
  else (128 ||| (toBytesBE n).length) :: toBytesBE n

/-- Modelled from the spec: `encode_octet_string`, the encoding implemented
by the absent `asn1_octet_der`: the length prefix of the byte count followed
by the bytes verbatim. -/
def encode_octet_string (bytes : List Nat) : List Nat :=
  encode_length bytes.length ++ bytes

/-- The single error kind of the module. -/
inductive DerError where
  | InvalidArgument
deriving DecidableEq

/-- Modelled from the spec: `encode_bit_string`, the encoding implemented by
the absent `asn1_bit_der`: with `byte_count = ceil(bit_len / 8)` and
`unused = byte_count * 8 - bit_len`, the output is the length prefix of
`byte_count + 1`, the unused-bits byte, then the first `byte_count` bytes of
`bits`; a negative `bit_len` or a `bits` buffer shorter than `byte_count`
fails with `InvalidArgument`. -/
def encode_bit_string (bits : List Nat) (bit_len : Int) :
    Except DerError (List Nat) :=
  if bit_len < 0 then .error .InvalidArgument
  else
    let byte_count := (bit_len.toNat + 7) / 8
    if bits.length < byte_count then .error .InvalidArgument
    else .ok (encode_length (byte_count + 1) ++
      (byte_count * 8 - bit_len.toNat) :: bits.take byte_count)

/-- Modelled from the spec: the inverse reading of a DER length encoding, as
described by the round-trip property: a single byte `≤ 127` is the value
itself; a leading byte `0x80 + k` announces `k` following big-endian
bytes. -/
def decode_length (l : List Nat) : Option Nat :=
  match l with
  | [] => none
  | b :: rest =>
    if b ≤ 127 then (if rest.isEmpty then some b else none)
    else if rest.length = b - 128 then some (fromBytesBE rest) else none

/-- One call to one of the three encoding operations. -/
inductive Call where
  | lengthCall (n : Nat)
  | octetCall (bytes : List Nat)
  | bitCall (bits : List Nat) (bit_len : Int)
deriving DecidableEq

/-- The output of one call; the two total operations always succeed. -/
def runCall : Call → Except DerError (List Nat)
  | .lengthCall n => .ok (encode_length n)
  | .octetCall bytes => .ok (encode_octet_string bytes)
  | .bitCall bits bl => encode_bit_string bits bl

/-- The outputs of a sequence of calls, in order.  There is no state
threaded between calls because the operations share none. -/
def runSeq (cs : List Call) : List (Except DerError (List Nat)) :=
  cs.map runCall

/-! Helper lemmas about the big-endian byte representation. -/

theorem fromBytesBE_concat (l : List Nat) (b : Nat) :
    fromBytesBE (l ++ [b]) = fromBytesBE l * 256 + b := by
  simp [fromBytesBE, List.foldl_append]

theorem toBytesBE_zero : toBytesBE 0 = [] := by
  rw [toBytesBE]
  simp

theorem toBytesBE_pos (n : Nat) (h : n ≠ 0) :
    toBytesBE n = toBytesBE (n / 256) ++ [n % 256] := by
  rw [toBytesBE]
  simp [h]

theorem fromBytesBE_toBytesBE (n : Nat) : fromBytesBE (toBytesBE n) = n := by
  induction n using Nat.strong_induction_on with
  | _ n ih =>
    by_cases h : n = 0
    · subst h
      rw [toBytesBE_zero]
      rfl
    · rw [toBytesBE_pos n h, fromBytesBE_concat,
        ih (n / 256) (Nat.div_lt_self (Nat.pos_of_ne_zero h) (by decide))]
      omega

theorem toBytesBE_head (n : Nat) :
    0 < n → ∃ b t, toBytesBE n = b :: t ∧ b ≠ 0 := by
  induction n using Nat.strong_induction_on with
  | _ n ih =>
    intro h
    rcases Nat.lt_or_ge n 256 with hlt | hge
    · rw [toBytesBE_pos n (by omega), Nat.div_eq_of_lt hlt, toBytesBE_zero]
      exact ⟨n % 256, [], by simp, by omega⟩
    · have hpos : 0 < n / 256 := Nat.div_pos hge (by decide)
      obtain ⟨b, t, ht, hb⟩ := ih (n / 256) (Nat.div_lt_self h (by decide)) hpos
      rw [toBytesBE_pos n (by omega), ht]
      exact ⟨b, t ++ [n % 256], by simp, hb⟩

theorem toBytesBE_length_le (k : Nat) :
    ∀ n, n < 256 ^ k → (toBytesBE n).length ≤ k := by
  induction k with
  | zero =>
    intro n hn
    have hz : n = 0 := by simpa using hn
    simp [hz, toBytesBE_zero]
  | succ k ih =>
    intro n hn
    by_cases h : n = 0
    · simp [h, toBytesBE_zero]
    · rw [toBytesBE_pos n h]
      have h2 : n / 256 < 256 ^ k := by
        rw [Nat.div_lt_iff_lt_mul (by decide : 0 < 256)]
        calc n < 256 ^ (k + 1) := hn
          _ = 256 ^ k * 256 := by ring
      have := ih (n / 256) h2
      simp only [List.length_append, List.length_cons, List.length_nil]
      omega

theorem toBytesBE_bytes_lt (n : Nat) : ∀ b ∈ toBytesBE n, b < 256 := by
  induction n using Nat.strong_induction_on with
  | _ n ih =>
    by_cases h : n = 0
    · simp [h, toBytesBE_zero]
    · rw [toBytesBE_pos n h]
      intro b hb
      rcases List.mem_append.mp hb with hb | hb
      · exact ih (n / 256) (Nat.div_lt_self (Nat.pos_of_ne_zero h) (by decide)) b hb
      · simp only [List.mem_singleton] at hb
        subst hb
        exact Nat.mod_lt _ (by decide)

theorem foldl_base256_lt (l : List Nat) :
    ∀ acc, (∀ b ∈ l, b < 256) →
      List.foldl (fun a b => a * 256 + b) acc l < (acc + 1) * 256 ^ l.length := by
  induction l with
  | nil =>
    intro acc _
    simp
  | cons b l ih =>
    intro acc hb
    simp only [List.foldl_cons, List.length_cons]
    have hblt : b < 256 := hb b (List.mem_cons_self b l)
    have h1 := ih (acc * 256 + b) (fun x hx => hb x (List.mem_cons_of_mem b hx))
    calc List.foldl (fun a b => a * 256 + b) (acc * 256 + b) l
        < (acc * 256 + b + 1) * 256 ^ l.length := h1
      _ ≤ ((acc + 1) * 256) * 256 ^ l.length :=
          Nat.mul_le_mul (by omega) (le_refl _)
      _ = (acc + 1) * 256 ^ (l.length + 1) := by ring

theorem fromBytesBE_lt (l : List Nat) (hb : ∀ b ∈ l, b < 256) :
    fromBytesBE l < 256 ^ l.length := by
  have := foldl_base256_lt l 0 hb
  simpa [fromBytesBE] using this

theorem toBytesBE_length_minimal (n : Nat) (l : List Nat)
    (hb : ∀ b ∈ l, b < 256) (hv : fromBytesBE l = n) :
    (toBytesBE n).length ≤ l.length :=
  toBytesBE_length_le l.length n (hv ▸ fromBytesBE_lt l hb)

theorem or128_eq : ∀ k < 128, 128 ||| k = 128 + k := by decide

theorem toBytesBE_small (n : Nat) (h0 : 0 < n) (h : n < 256) :
    toBytesBE n = [n] := by
  rw [toBytesBE_pos n (by omega), Nat.div_eq_of_lt h, toBytesBE_zero,
    Nat.mod_eq_of_lt h]
  rfl

/-! Claim theorems. -/

/-- C1: each of the three exported wrapper functions passes its arguments
unchanged to the corresponding native library call and returns the length
value produced by that call, adding no computation of its own: every wrapper
equals the spec-side direct forwarding, at every native routine and every
argument. -/
theorem wrappers_forward (libLen : Nat → LibOut)
    (libOct libBit : List Nat → Int → LibOut)
    (len : Nat) (str : List Nat) (str_len : Int)
    (bits : List Nat) (bit_len : Int) :
    node_asn1_length_der libLen len = specForwardLength libLen len ∧
    node_asn1_octet_der libOct str str_len = specForwardOctet libOct str str_len ∧
    node_asn1_bit_der libBit bits bit_len = specForwardBit libBit bits bit_len := by
  refine ⟨?_, ?_, ?_⟩
  · unfold node_asn1_length_der specForwardLength LibOut.producedLength
    cases hx : (libLen len).derLen <;> simp [hx]
  · unfold node_asn1_octet_der specForwardOctet LibOut.producedLength
    cases hx : (libOct str str_len).derLen <;> simp [hx]
  · unfold node_asn1_bit_der specForwardBit LibOut.producedLength
    cases hx : (libBit bits bit_len).derLen <;> simp [hx]

/-- C9: every wrapper returns exactly the value the wrapped call stores
through its output-length pointer, starting from the initial value `0`; in
particular, when the call writes nothing through the pointer, the wrapper
returns `0`. -/
theorem wrappers_return_written_length (libLen : Nat → LibOut)
    (libOct libBit : List Nat → Int → LibOut)
    (len : Nat) (str : List Nat) (str_len : Int)
    (bits : List Nat) (bit_len : Int) :
    node_asn1_length_der libLen len = ((libLen len).derLen).getD 0 ∧
    ((libLen len).derLen = none → node_asn1_length_der libLen len = 0) ∧
    node_asn1_octet_der libOct str str_len = ((libOct str str_len).derLen).getD 0 ∧
    ((libOct str str_len).derLen = none →
      node_asn1_octet_der libOct str str_len = 0) ∧
    node_asn1_bit_der libBit bits bit_len = ((libBit bits bit_len).derLen).getD 0 ∧
    ((libBit bits bit_len).derLen = none →
      node_asn1_bit_der libBit bits bit_len = 0) := by
  refine ⟨?_, ?_, ?_, ?_, ?_, ?_⟩
  · unfold node_asn1_length_der
    cases hx : (libLen len).derLen <;> simp [hx]
  · intro hx
    unfold node_asn1_length_der
    simp [hx]
  · unfold node_asn1_octet_der
    cases hx : (libOct str str_len).derLen <;> simp [hx]
  · intro hx
    unfold node_asn1_octet_der
    simp [hx]
  · unfold node_asn1_bit_der
    cases hx : (libBit bits bit_len).derLen <;> simp [hx]
  · intro hx
    unfold node_asn1_bit_der
    simp [hx]

/-- Witness for C9 at a native routine that writes nothing through the
pointer: each wrapper returns `0`. -/
theorem wrappers_return_written_length_witness :
    node_asn1_length_der (fun _ => ⟨[], none⟩) 5 = 0 ∧
    node_asn1_octet_der (fun _ _ => ⟨[], none⟩) [1] 1 = 0 ∧
    node_asn1_bit_der (fun _ _ => ⟨[], none⟩) [1] 1 = 0 := by
  have h := wrappers_return_written_length (fun _ => ⟨[], none⟩)
    (fun _ _ => ⟨[], none⟩) (fun _ _ => ⟨[], none⟩) 5 [1] 1 [1] 1
  exact ⟨h.2.1 rfl, h.2.2.2.1 rfl, h.2.2.2.2.2 rfl⟩

/-- C10: the first wrapper declares its length parameter as
`unsigned long int`, so a caller-supplied value reaches the native routine
reduced modulo `2 ^ w`; a negative caller value reaches it as a
non-negative length — for values above `-2 ^ w`, strictly positive — never
as a negative one, while the `int` length parameters of the other two
wrappers forward caller values unchanged, negative ones included. -/
theorem length_param_conversion (w : Nat) (v : Int) :
    ((toUnsignedLong w v : Int) = v % 2 ^ w) ∧
    (0 ≤ (toUnsignedLong w v : Int)) ∧
    (v < 0 → -(2 ^ w : Int) < v →
      (toUnsignedLong w v : Int) = v + 2 ^ w ∧ 0 < (toUnsignedLong w v : Int)) ∧
    (node_asn1_length_der_boundary w reportLen v = v % 2 ^ w) ∧
    (∀ str, node_asn1_octet_der reportOctet str v = v) ∧
    (∀ bits, node_asn1_bit_der reportBit bits v = v) := by
  have hpow : (0 : Int) < 2 ^ w := by positivity
  have hmod : 0 ≤ v % 2 ^ w := Int.emod_nonneg v (by positivity)
  have hcast : ((toUnsignedLong w v : Nat) : Int) = v % 2 ^ w := by
    unfold toUnsignedLong
    exact Int.toNat_of_nonneg hmod
  refine ⟨hcast, by rw [hcast]; exact hmod, ?_, ?_, ?_, ?_⟩
  · intro hv hlb
    have hge : 0 ≤ v + 2 ^ w := by linarith
    have hlt : v + 2 ^ w < 2 ^ w := by linarith
    have he : v % 2 ^ w = v + 2 ^ w := by
      have h1 := @Int.add_mul_emod_self_left v (2 ^ w) 1
      rw [mul_one] at h1
      rw [← h1]
      exact Int.emod_eq_of_lt hge hlt
    exact ⟨by rw [hcast, he], by rw [hcast, he]; linarith⟩
  · unfold node_asn1_length_der_boundary node_asn1_length_der reportLen
    simpa using hcast
  · intro str
    rfl
  · intro bits
    rfl

/-- Witness for C10 at width `8` and caller value `-3`: the native routine
receives `253`. -/
theorem length_param_conversion_witness :
    (toUnsignedLong 8 (-3) : Int) = -3 + 2 ^ 8 ∧
      0 < (toUnsignedLong 8 (-3) : Int) :=
  (length_param_conversion 8 (-3)).2.2.1 (by decide) (by decide)

/-- C2: for every `n ≤ 127`, including `n = 0`, the length encoding is
exactly one byte whose value is `n`. -/
theorem encode_length_short (n : Nat) (h : n ≤ 127) :
    encode_length n = [n] ∧ (encode_length n).length = 1 := by
  simp [encode_length, h]

/-- Witness for C2 at `n = 0`: the encoding is the single byte `0x00`. -/
theorem encode_length_short_witness :
    encode_length 0 = [0] ∧ (encode_length 0).length = 1 :=
  encode_length_short 0 (by decide)

/-- C3: for every `n > 127` the encoding is the byte `0x80 ||| k` followed
by the `k` big-endian bytes of `n`: the tail has value `n`, carries no
leading zero byte, and no byte string of bytes below 256 with value `n` is
shorter; for `n` in `[128, 255]` the output is `[0x81, n]`. -/
theorem encode_length_long (n : Nat) (h : 127 < n) :
    encode_length n = (128 ||| (toBytesBE n).length) :: toBytesBE n ∧
    fromBytesBE (toBytesBE n) = n ∧
    (toBytesBE n).head? ≠ some 0 ∧
    (∀ l, (∀ b ∈ l, b < 256) → fromBytesBE l = n →
      (toBytesBE n).length ≤ l.length) ∧
    (n ≤ 255 → encode_length n = [129, n]) := by
  have h127 : ¬ n ≤ 127 := by omega
  obtain ⟨b, t, hbt, hb⟩ := toBytesBE_head n (by omega)
  refine ⟨by simp [encode_length, h127], fromBytesBE_toBytesBE n, ?_, ?_, ?_⟩
  · rw [hbt]
    simp only [List.head?_cons, ne_eq, Option.some.injEq]
    exact hb
  · exact fun l hl hv => toBytesBE_length_minimal n l hl hv
  · intro h255
    have hsmall : toBytesBE n = [n] := toBytesBE_small n (by omega) (by omega)
    have hor : (128 : Nat) ||| 1 = 129 := by decide
    simp [encode_length, h127, hsmall, hor]

/-- Witness for C3 at `n = 200`: the encoding is `[0x81, 200]`. -/
theorem encode_length_long_witness : encode_length 200 = [129, 200] :=
  (encode_length_long 200 (by decide)).2.2.2.2 (by decide)

/-- C4: the octet-string encoding is the length prefix of the byte count
followed by the bytes verbatim; the empty input is valid and yields the
single byte `0x00` with no content bytes. -/
theorem encode_octet_string_spec (bytes : List Nat) :
    encode_octet_string bytes = encode_length bytes.length ++ bytes ∧
    encode_octet_string [] = [0] ∧
    encode_octet_string [1, 2, 3] = [3, 1, 2, 3] :=
  ⟨rfl, rfl, rfl⟩

/-- C5: for every non-negative `bit_len` with at least
`byte_count = ceil(bit_len / 8)` bytes available, the bit-string encoding is
the length prefix of `byte_count + 1`, then the unused-bits byte
`byte_count * 8 - bit_len` (at most `7`), then the first `byte_count` bytes;
`bit_len = 0` yields length byte `1`, unused-bits byte `0` and no content
bytes. -/
theorem encode_bit_string_spec (bits : List Nat) (bit_len : Int)
    (h0 : 0 ≤ bit_len) (hlen : (bit_len.toNat + 7) / 8 ≤ bits.length) :
    encode_bit_string bits bit_len =
      .ok (encode_length ((bit_len.toNat + 7) / 8 + 1) ++
        ((bit_len.toNat + 7) / 8 * 8 - bit_len.toNat) ::
          bits.take ((bit_len.toNat + 7) / 8)) ∧
    bit_len.toNat ≤ (bit_len.toNat + 7) / 8 * 8 ∧
    (bit_len.toNat + 7) / 8 * 8 < bit_len.toNat + 8 ∧
    (bit_len.toNat + 7) / 8 * 8 - bit_len.toNat ≤ 7 ∧
    (bit_len = 0 → encode_bit_string bits bit_len = .ok [1, 0]) := by
  have h1 : ¬ (bit_len < 0) := not_lt.mpr h0
  have h2 : ¬ (bits.length < (bit_len.toNat + 7) / 8) := not_lt.mpr hlen
  refine ⟨by simp [encode_bit_string, h1, h2], by omega, by omega, by omega, ?_⟩
  intro hz
  subst hz
  simp [encode_bit_string, encode_length]

/-- Witness for C5 at the spec's test vector: four bits `0xF0` encode as
`[0x02, 0x04, 0xF0]`. -/
theorem encode_bit_string_spec_witness :
    encode_bit_string [240] 4 = .ok [2, 4, 240] := by
  have h := encode_bit_string_spec [240] 4 (by decide) (by decide)
  exact h.1.trans (by rfl)

/-- C6: a negative `bit_len`, or a `bits` buffer with fewer than
`byte_count` bytes, makes the bit-string encoder fail with
`InvalidArgument`, and a failing call returns no output bytes at all. -/
theorem encode_bit_string_invalid (bits : List Nat) (bit_len : Int)
    (h : bit_len < 0 ∨ bits.length < (bit_len.toNat + 7) / 8) :
    encode_bit_string bits bit_len = .error .InvalidArgument ∧
    ∀ out, encode_bit_string bits bit_len ≠ .ok out := by
  have he : encode_bit_string bits bit_len = .error .InvalidArgument := by
    rcases h with h | h
    · simp [encode_bit_string, h]
    · by_cases h0 : bit_len < 0
      · simp [encode_bit_string, h0]
      · simp [encode_bit_string, h0, h]
  exact ⟨he, fun out hok => by rw [he] at hok; exact Except.noConfusion hok⟩

/-- Witness for C6: an empty buffer with `bit_len = 3` fails with
`InvalidArgument`. -/
theorem encode_bit_string_invalid_witness :
    encode_bit_string [] 3 = .error .InvalidArgument :=
  (encode_bit_string_invalid [] 3 (Or.inr (by decide))).1

/-- C7: for every `n ≥ 256` in the platform integer range, decoding the
long-form output of the length encoder yields exactly `n`, and the
multi-byte tail (at least two bytes here) has no leading zero byte. -/
theorem encode_length_roundtrip (n : Nat) (h : 256 ≤ n) (hw : n < 2 ^ 64) :
    decode_length (encode_length n) = some n ∧
    (encode_length n).tail.head? ≠ some 0 ∧
    2 ≤ (encode_length n).tail.length := by
  have h127 : ¬ n ≤ 127 := by omega
  have h256 : n < 256 ^ 8 := by
    have he : (256 : Nat) ^ 8 = 2 ^ 64 := by norm_num
    omega
  have hk8 : (toBytesBE n).length ≤ 8 := toBytesBE_length_le 8 n h256
  have hor : 128 ||| (toBytesBE n).length = 128 + (toBytesBE n).length :=
    or128_eq _ (by omega)
  have hlen2 : 2 ≤ (toBytesBE n).length := by
    by_contra hc
    push_neg at hc
    have hv := fromBytesBE_lt (toBytesBE n) (toBytesBE_bytes_lt n)
    rw [fromBytesBE_toBytesBE] at hv
    have hle : (256 : Nat) ^ (toBytesBE n).length ≤ 256 ^ 1 :=
      Nat.pow_le_pow_right (by decide) (by omega)
    simp only [pow_one] at hle
    omega
  obtain ⟨b, t, hbt, hb0⟩ := toBytesBE_head n (by omega)
  refine ⟨?_, ?_, ?_⟩
  · simp only [encode_length, if_neg h127, decode_length, hor]
    rw [if_neg (by omega), if_pos (by omega)]
    rw [fromBytesBE_toBytesBE]
  · simp only [encode_length, if_neg h127, List.tail_cons]
    rw [hbt]
    simp only [List.head?_cons, ne_eq, Option.some.injEq]
    exact hb0
  · simp only [encode_length, if_neg h127, List.tail_cons]
    exact hlen2

/-- Witness for C7 at `n = 256`: the encoding decodes back to `256`. -/
theorem encode_length_roundtrip_witness :
    decode_length (encode_length 256) = some 256 :=
  (encode_length_roundtrip 256 (by decide) (by norm_num)).1

/-- C8: the encoding operations are pure and stateless: in a sequence of
calls each call's output is a function of that call's own argument alone, so
a call with identical arguments yields byte-identical output after any two
histories. -/
theorem encoders_pure (hist hist2 : List Call) (c : Call) :
    runSeq (hist ++ [c]) = runSeq hist ++ [runCall c] ∧
    (runSeq (hist ++ [c])).getLast? = (runSeq (hist2 ++ [c])).getLast? := by
  constructor
  · simp [runSeq]
  · simp [runSeq, List.getLast?_concat]

end DerWrapper
